import Mathlib

/-!
Verification of the optimization core (alias analysis, builtin specialization,
dataflow bit-vector, frequency profile) against its specification.

Each definition is a shallow embedding of the corresponding item in the
source tree (src/zjit/src/tbaa.rs, cruby_methods.rs, bitset.rs,
distribution.rs).  Machine integers are modelled as Nat; `u128` entries of the
bit set carry an explicit `< 2 ^ 128` bound where it matters.  Assertions
(including debug assertions, which the project's own tests exercise as
panicking) are modelled as `Option`-valued failure: `none` is the fatal
precondition violation.
-/

namespace ZjitCore

/-- Instruction identity inside one function (hir `InsnId`). -/
abbrev InsnId := Nat

/-! ## tbaa.rs : alias classes and memory locations -/

/-- Alias classes, one constructor per variant of `AliasClass` in tbaa.rs. -/
inductive AliasClass
  | ArrayIvar
  | HashIvar
  | StringIvar
  | IntegerIvar
  | FloatIvar
  | SymbolIvar
  | RangeIvar
  | RegexpIvar
  | OtherIvar
  | GlobalVar
  | LocalVar
  | Unknown
deriving DecidableEq, Repr, Fintype

/-- `AliasClass::may_alias` from tbaa.rs: the guarded first match arm tests
structural equality, the second arm catches `Unknown` on either side, the
default arm returns false. -/
def AliasClass.may_alias (a b : AliasClass) : Bool :=
  if a = b then true
  else
    match a, b with
    | .Unknown, _ | _, .Unknown => true
    | _, _ => false

/-- `MemoryLocation` from tbaa.rs.  `u64`/`u32` identifiers are modelled as
`Nat`; they are only ever compared for equality. -/
inductive MemoryLocation
  | InstanceVariable (obj : InsnId) (ivar : Nat) (cls : AliasClass)
  | GlobalVariable (id : Nat)
  | LocalVariable (level : Nat) (ep_offset : Nat)
deriving DecidableEq, Repr

/-- `MemoryLocation::may_alias` from tbaa.rs, arm for arm: the guarded first
arm tests full structural equality; the instance-variable arm distinguishes
syntactically different receivers (delegate to class-level `may_alias`) from
the identical receiver (where the source computes
`id1 == id2 || class1.may_alias(&Unknown) || class2.may_alias(&Unknown)`);
globals and locals compare identifiers; mixed kinds never alias. -/
def MemoryLocation.may_alias (a b : MemoryLocation) : Bool :=
  if a = b then true
  else
    match a, b with
    | .InstanceVariable obj1 id1 class1, .InstanceVariable obj2 id2 class2 =>
      if obj1 ≠ obj2 then
        class1.may_alias class2
      else
        id1 == id2 || class1.may_alias .Unknown || class2.may_alias .Unknown
    | .GlobalVariable id1, .GlobalVariable id2 => id1 == id2
    | .LocalVariable l1 o1, .LocalVariable l2 o2 => l1 == l2 && o1 == o2
    | _, _ => false

/-- `MemoryOpTracker` from tbaa.rs; the `HashMap<InsnId, MemoryLocation>` is
modelled extensionally as a partial map. -/
structure MemoryOpTracker where
  locations : InsnId → Option MemoryLocation

/-- `MemoryOpTracker::may_alias` from tbaa.rs: delegate when both locations
are recorded, otherwise conservatively answer true. -/
def MemoryOpTracker.may_alias (t : MemoryOpTracker) (insn1 insn2 : InsnId) : Bool :=
  match t.locations insn1, t.locations insn2 with
  | some loc1, some loc2 => loc1.may_alias loc2
  | _, _ => true

/-! ## bitset.rs : dataflow bit-vector -/

/-- `Entry::BITS` for `type Entry = u128` in bitset.rs. -/
def entryBits : Nat := 128

/-- `BitSet` from bitset.rs: a vector of 128-bit entries plus the bit
capacity.  Entries are modelled as `Nat`; well-formed states (see
`BitSet.Wf`) keep every entry below `2 ^ 128`. -/
structure BitSet where
  storage : List Nat
  num_bits : Nat
deriving DecidableEq, Repr

/-- `BitSet::with_capacity` from bitset.rs: `num_bits / Entry::BITS + 1`
zero entries (rounding down, hence the `+ 1`). -/
def BitSet.with_capacity (num_bits : Nat) : BitSet :=
  { storage := List.replicate (num_bits / entryBits + 1) 0, num_bits := num_bits }

/-- `BitSet::insert` from bitset.rs.  The assertion `idx < num_bits` is
modelled as `Option`-valued failure (`none` = fatal precondition violation);
on success the result pairs the updated set with `newly_inserted`. -/
def BitSet.insert (s : BitSet) (idx : Nat) : Option (BitSet × Bool) :=
  if idx < s.num_bits then
    let entry_idx := idx / entryBits
    let bit_idx := idx % entryBits
    let entry := s.storage.getD entry_idx 0
    some ({ s with storage := s.storage.set entry_idx (entry ||| (1 <<< bit_idx)) },
          (entry &&& (1 <<< bit_idx)) == 0)
  else none

/-- `BitSet::get` from bitset.rs, with the same assertion-as-`Option`
modelling. -/
def BitSet.get (s : BitSet) (idx : Nat) : Option Bool :=
  if idx < s.num_bits then
    some ((s.storage.getD (idx / entryBits) 0 &&& (1 <<< (idx % entryBits))) != 0)
  else none

/-- The entry-wise loop of `BitSet::intersect_with`: and the entries
pointwise, accumulating `changed`.  (The truncating second arm is
unreachable through the public API: the capacity assertion plus the
well-formed storage length make both storage vectors equally long.) -/
def intersectStorage : List Nat → List Nat → List Nat × Bool
  | [], _ => ([], false)
  | _ :: _, [] => ([], false)
  | a :: xs, b :: ys =>
    let r := intersectStorage xs ys
    ((a &&& b) :: r.1, r.2 || ((a &&& b) != a))

/-- `BitSet::intersect_with` from bitset.rs.  The `assert_eq!` on the two
capacities is modelled as `Option`-valued failure. -/
def BitSet.intersect_with (s other : BitSet) : Option (BitSet × Bool) :=
  if s.num_bits = other.num_bits then
    let r := intersectStorage s.storage other.storage
    some ({ s with storage := r.1 }, r.2)
  else none

/-- Bit `k` of the raw storage (entry `k / 128`, bit `k % 128`). -/
def BitSet.rawBit (s : BitSet) (k : Nat) : Bool :=
  (s.storage.getD (k / entryBits) 0).testBit (k % entryBits)

/-- States reachable through the public bit-set API: the storage length
matches `with_capacity`, each entry fits in a `u128`, and no bit at or above
the capacity is set. -/
def BitSet.Wf (s : BitSet) : Prop :=
  s.storage.length = s.num_bits / entryBits + 1
  ∧ (∀ e ∈ s.storage, e < 2 ^ entryBits)
  ∧ (∀ k < s.storage.length * entryBits, s.num_bits ≤ k → s.rawBit k = false)

instance (s : BitSet) : Decidable s.Wf := by
  unfold BitSet.Wf; infer_instance

/-! ## distribution.rs : bounded frequency histogram -/

/-- `Distribution` from distribution.rs: parallel bucket/count vectors, an
overflow counter, and the fixed bucket capacity. -/
structure Distribution (T : Type) where
  buckets : List T
  counts : List Nat
  other : Nat
  max_num_buckets : Nat
deriving Repr

/-- `Distribution::new` from distribution.rs. -/
def Distribution.new (T : Type) (max_num_buckets : Nat) : Distribution T :=
  { buckets := [], counts := [], other := 0, max_num_buckets := max_num_buckets }

/-- The bucket scan inside `Distribution::observe`: walk the zipped
bucket/count vectors, increment the count of the first bucket equal to the
item; `none` when no bucket matches. -/
def observeLoop {T : Type} [DecidableEq T] : List T → List Nat → T → Option (List Nat)
  | [], _, _ => none
  | _ :: _, [], _ => none
  | b :: bs, c :: cs, item =>
    if b = item then some ((c + 1) :: cs)
    else (observeLoop bs cs item).map (c :: ·)

/-- `Distribution::observe` from distribution.rs: increment a matching
bucket, else create a bucket while below capacity, else bump the overflow
counter.  (The `assert_eq!` on the vector lengths always holds on states
reachable from `new`; see the C10 invariant.) -/
def Distribution.observe {T : Type} [DecidableEq T] (d : Distribution T) (item : T) :
    Distribution T :=
  match observeLoop d.buckets d.counts item with
  | some counts2 => { d with counts := counts2 }
  | none =>
    if d.buckets.length < d.max_num_buckets then
      { d with buckets := d.buckets ++ [item], counts := d.counts ++ [1] }
    else
      { d with other := d.other + 1 }

/-- The accumulator loop of Rust's `Iterator::max_by` with comparison on the
counts: the accumulator survives only when strictly greater, so the last
maximal element wins. -/
def maxByLastAux {T : Type} : T × Nat → List (T × Nat) → T × Nat
  | a, [] => a
  | a, x :: xs => maxByLastAux (if x.2 < a.2 then a else x) xs

/-- `Distribution::most_common` from distribution.rs:
`buckets.zip(counts).max_by(count comparison).map(bucket)`. -/
def Distribution.most_common {T : Type} (d : Distribution T) : Option T :=
  match d.buckets.zip d.counts with
  | [] => none
  | x :: xs => some (maxByLastAux x xs).1

/-- The invariant of C10: parallel vectors, capacity bound, and pairwise
distinct buckets. -/
def DistInv {T : Type} (d : Distribution T) : Prop :=
  d.buckets.length = d.counts.length
  ∧ d.buckets.length ≤ d.max_num_buckets
  ∧ d.buckets.Nodup

/-! ## cruby_methods.rs : builtin annotations and specializers -/

/-- hir `BlockId`. -/
abbrev BlockId := Nat

/-- The two basic-operation redefinition flags the not-equal specializer is
concerned with (cruby constants `BOP_EQ` and `BOP_NEQ`). -/
inductive BOP
  | BOP_EQ
  | BOP_NEQ
deriving DecidableEq, Repr

/-- Modelled from the spec: `INTEGER_REDEFINED_OP_FLAG`, the external
runtime constant naming the Integer class in operator-redefinition
invariants (the cruby bindings are not part of this source tree); only its
identity matters here. -/
def INTEGER_REDEFINED_OP_FLAG : Nat := 0

/-- The invariant payload of a patch point (hir `Invariant`); the
specializers only use the operator-redefinition variant. -/
inductive Invariant
  | BOPRedefined (klass : Nat) (bop : BOP)
deriving DecidableEq, Repr

/-- The guard type of `Insn::GuardType`; the cataloged specializers only
guard on Fixnum. -/
inductive HirType
  | Fixnum
deriving DecidableEq, Repr

/-- Modelled from the spec: the subset of hir `Insn` variants the cataloged
specializers emit (hir.rs is not part of this source tree) — one
constructor per guard, patch point, or primitive they push. -/
inductive Insn
  | GuardType (val : InsnId) (guard_type : HirType) (state : InsnId)
  | PatchPoint (invariant : Invariant)
  | FixnumAdd (left right state : InsnId)
  | FixnumSub (left right state : InsnId)
  | FixnumMult (left right state : InsnId)
  | FixnumDiv (left right state : InsnId)
  | FixnumMod (left right state : InsnId)
  | FixnumEq (left right : InsnId)
  | FixnumNeq (left right : InsnId)
  | FixnumLt (left right : InsnId)
  | FixnumLe (left right : InsnId)
  | FixnumGt (left right : InsnId)
  | FixnumGe (left right : InsnId)
deriving DecidableEq, Repr

/-- Modelled from the spec: the function under construction (hir
`Function`, not part of this source tree).  `insns` is the emitted
instruction sequence; `likely_fixnums` is the read-only type/profile oracle
behind `arguments_likely_fixnums`; `is_fixnum` is the read-only static-type
test used by `coerce_to_fixnum`. -/
structure Function where
  insns : List Insn
  likely_fixnums : InsnId → InsnId → InsnId → Bool
  is_fixnum : InsnId → Bool

/-- Modelled from the spec: `push_insn` appends an instruction to the
function under construction and returns the fresh value reference naming
its result. -/
def Function.push_insn (f : Function) (_block : BlockId) (insn : Insn) :
    Function × InsnId :=
  ({ f with insns := f.insns ++ [insn] }, f.insns.length)

/-- `arguments_likely_fixnums`, modelled from the spec as the pure
type/profile oracle carried by the function (its hir implementation is not
part of this source tree). -/
def Function.arguments_likely_fixnums (f : Function) (left right state : InsnId) : Bool :=
  f.likely_fixnums left right state

/-- `coerce_to_fixnum` from cruby_methods.rs: no instruction when the value
is statically a Fixnum, otherwise push a `GuardType` deoptimization
guard. -/
def Function.coerce_to_fixnum (f : Function) (block : BlockId) (val state : InsnId) :
    Function × InsnId :=
  if f.is_fixnum val then (f, val)
  else f.push_insn block (.GuardType val .Fixnum state)

/-- The specializer signature from cruby_methods.rs with the `&mut Function`
made explicit: the (possibly extended) function is returned beside the
optional replacement value reference. -/
abbrev Specializer := Function → BlockId → InsnId → List InsnId → Function × Option InsnId

/-- `no_inline` from cruby_methods.rs. -/
def no_inline : Specializer := fun f _block _state _args => (f, none)

/-- `kernel_itself` from cruby_methods.rs. -/
def kernel_itself : Specializer := fun f _block _state args =>
  match args with
  | [self_val] => (f, some self_val)
  | _ => (f, none)

/-- `fixnum_add` from cruby_methods.rs. -/
def fixnum_add : Specializer := fun f block state args =>
  match args with
  | [left, right] =>
    if f.arguments_likely_fixnums left right state then
      let c1 := f.coerce_to_fixnum block left state
      let c2 := c1.1.coerce_to_fixnum block right state
      let p := c2.1.push_insn block (.FixnumAdd c1.2 c2.2 state)
      (p.1, some p.2)
    else (f, none)
  | _ => (f, none)

/-- `fixnum_sub` from cruby_methods.rs. -/
def fixnum_sub : Specializer := fun f block state args =>
  match args with
  | [left, right] =>
    if f.arguments_likely_fixnums left right state then
      let c1 := f.coerce_to_fixnum block left state
      let c2 := c1.1.coerce_to_fixnum block right state
      let p := c2.1.push_insn block (.FixnumSub c1.2 c2.2 state)
      (p.1, some p.2)
    else (f, none)
  | _ => (f, none)

/-- `fixnum_mul` from cruby_methods.rs (emits `FixnumMult`). -/
def fixnum_mul : Specializer := fun f block state args =>
  match args with
  | [left, right] =>
    if f.arguments_likely_fixnums left right state then
      let c1 := f.coerce_to_fixnum block left state
      let c2 := c1.1.coerce_to_fixnum block right state
      let p := c2.1.push_insn block (.FixnumMult c1.2 c2.2 state)
      (p.1, some p.2)
    else (f, none)
  | _ => (f, none)

/-- `fixnum_div` from cruby_methods.rs. -/
def fixnum_div : Specializer := fun f block state args =>
  match args with
  | [left, right] =>
    if f.arguments_likely_fixnums left right state then
      let c1 := f.coerce_to_fixnum block left state
      let c2 := c1.1.coerce_to_fixnum block right state
      let p := c2.1.push_insn block (.FixnumDiv c1.2 c2.2 state)
      (p.1, some p.2)
    else (f, none)
  | _ => (f, none)

/-- `fixnum_mod` from cruby_methods.rs. -/
def fixnum_mod : Specializer := fun f block state args =>
  match args with
  | [left, right] =>
    if f.arguments_likely_fixnums left right state then
      let c1 := f.coerce_to_fixnum block left state
      let c2 := c1.1.coerce_to_fixnum block right state
      let p := c2.1.push_insn block (.FixnumMod c1.2 c2.2 state)
      (p.1, some p.2)
    else (f, none)
  | _ => (f, none)

/-- `fixnum_eq` from cruby_methods.rs (defined but never registered in the
catalog; see C4). -/
def fixnum_eq : Specializer := fun f block state args =>
  match args with
  | [left, right] =>
    if f.arguments_likely_fixnums left right state then
      let c1 := f.coerce_to_fixnum block left state
      let c2 := c1.1.coerce_to_fixnum block right state
      let p := c2.1.push_insn block (.FixnumEq c1.2 c2.2)
      (p.1, some p.2)
    else (f, none)
  | _ => (f, none)

/-- `basicobject_neq` from cruby_methods.rs: after the profile check it
pushes a single patch point on `(INTEGER_REDEFINED_OP_FLAG, BOP_EQ)`
(discarding its reference), coerces both operands, and emits
`FixnumNeq`. -/
def basicobject_neq : Specializer := fun f block state args =>
  match args with
  | [left, right] =>
    if f.arguments_likely_fixnums left right state then
      let pp := f.push_insn block
        (.PatchPoint (.BOPRedefined INTEGER_REDEFINED_OP_FLAG .BOP_EQ))
      let c1 := pp.1.coerce_to_fixnum block left state
      let c2 := c1.1.coerce_to_fixnum block right state
      let p := c2.1.push_insn block (.FixnumNeq c1.2 c2.2)
      (p.1, some p.2)
    else (f, none)
  | _ => (f, none)

/-- `fixnum_lt` from cruby_methods.rs. -/
def fixnum_lt : Specializer := fun f block state args =>
  match args with
  | [left, right] =>
    if f.arguments_likely_fixnums left right state then
      let c1 := f.coerce_to_fixnum block left state
      let c2 := c1.1.coerce_to_fixnum block right state
      let p := c2.1.push_insn block (.FixnumLt c1.2 c2.2)
      (p.1, some p.2)
    else (f, none)
  | _ => (f, none)

/-- `fixnum_le` from cruby_methods.rs. -/
def fixnum_le : Specializer := fun f block state args =>
  match args with
  | [left, right] =>
    if f.arguments_likely_fixnums left right state then
      let c1 := f.coerce_to_fixnum block left state
      let c2 := c1.1.coerce_to_fixnum block right state
      let p := c2.1.push_insn block (.FixnumLe c1.2 c2.2)
      (p.1, some p.2)
    else (f, none)
  | _ => (f, none)

/-- `fixnum_gt` from cruby_methods.rs. -/
def fixnum_gt : Specializer := fun f block state args =>
  match args with
  | [left, right] =>
    if f.arguments_likely_fixnums left right state then
      let c1 := f.coerce_to_fixnum block left state
      let c2 := c1.1.coerce_to_fixnum block right state
      let p := c2.1.push_insn block (.FixnumGt c1.2 c2.2)
      (p.1, some p.2)
    else (f, none)
  | _ => (f, none)

/-- `fixnum_ge` from cruby_methods.rs. -/
def fixnum_ge : Specializer := fun f block state args =>
  match args with
  | [left, right] =>
    if f.arguments_likely_fixnums left right state then
      let c1 := f.coerce_to_fixnum block left state
      let c2 := c1.1.coerce_to_fixnum block right state
      let p := c2.1.push_insn block (.FixnumGe c1.2 c2.2)
      (p.1, some p.2)
    else (f, none)
  | _ => (f, none)

/-- `return_type` values of the catalog entries, with just enough of the
external type lattice to transcribe `init()`. -/
inductive RetType
  | BasicObject
  | Fixnum
  | StringExact
  | NilClassExact
  | BoolExact
  | IntegerExact
  | union (a b : RetType)
deriving DecidableEq, Repr

/-- `FnProperties` from cruby_methods.rs. -/
structure FnProperties where
  no_gc : Bool
  leaf : Bool
  return_type : RetType
  elidable : Bool
  inline : Specializer

/-- The catalog installed by `init()` in cruby_methods.rs, entry for entry:
(receiver class, method name, properties).  The runtime resolution of each
pair to a C function pointer is external; entries are keyed here by the
(class, method) pair each `annotate!` invocation receives.  Note the source
wires `Integer#==` to `fixnum_gt`. -/
def builtinCatalog : List (String × String × FnProperties) :=
  [ ("Kernel", "itself", ⟨true, true, .BasicObject, false, kernel_itself⟩)
  , ("String", "bytesize", ⟨true, true, .Fixnum, false, no_inline⟩)
  , ("Module", "name", ⟨true, true, .union .StringExact .NilClassExact, false, no_inline⟩)
  , ("Module", "===", ⟨true, true, .BoolExact, false, no_inline⟩)
  , ("Array", "length", ⟨true, true, .Fixnum, true, no_inline⟩)
  , ("Array", "size", ⟨true, true, .Fixnum, true, no_inline⟩)
  , ("BasicObject", "!=", ⟨false, false, .BoolExact, false, basicobject_neq⟩)
  , ("Integer", "+", ⟨false, false, .IntegerExact, false, fixnum_add⟩)
  , ("Integer", "-", ⟨false, false, .IntegerExact, false, fixnum_sub⟩)
  , ("Integer", "*", ⟨false, false, .IntegerExact, false, fixnum_mul⟩)
  , ("Integer", "/", ⟨false, false, .IntegerExact, false, fixnum_div⟩)
  , ("Integer", "%", ⟨false, false, .IntegerExact, false, fixnum_mod⟩)
  , ("Integer", "==", ⟨false, false, .BoolExact, false, fixnum_gt⟩)
  , ("Integer", "<", ⟨false, false, .BoolExact, false, fixnum_lt⟩)
  , ("Integer", "<=", ⟨false, false, .BoolExact, false, fixnum_le⟩)
  , ("Integer", ">", ⟨false, false, .BoolExact, false, fixnum_gt⟩)
  , ("Integer", ">=", ⟨false, false, .BoolExact, false, fixnum_ge⟩)
  ]

/-- Lookup of a catalog entry by receiver class and method name. -/
def catalogLookup (klass method : String) : Option FnProperties :=
  (builtinCatalog.find? (fun e => e.1 == klass && e.2.1 == method)).map (·.2.2)

/-- A concrete function state whose profile marks every operand pair as
likely fixnums and whose operands are statically Fixnum already (so
coercion inserts no guards); used to evaluate specializers. -/
def likelyFixnumFn : Function :=
  { insns := [], likely_fixnums := fun _ _ _ => true, is_fixnum := fun _ => true }

end ZjitCore

namespace ZjitCore

/-! ## Claims C1, C2, C6 -/

/-- C1: the claim states that for field accesses on the syntactically
identical receiver, `MemoryLocation.may_alias` is true iff the field ids are
equal or one alias class is `Unknown`.  The code instead computes
`class1.may_alias(Unknown)`, which is true for every class, so it returns
true even for different field ids and two non-Unknown classes — the exact
input the repository's own unit test
`test_memory_location_same_object_different_ivar` expects to yield false.
This theorem evaluates the code at that failing input. -/
theorem C1_same_receiver_different_ivar_evaluates_true :
    MemoryLocation.may_alias
        (.InstanceVariable 0 1 .ArrayIvar) (.InstanceVariable 0 2 .ArrayIvar) = true
      ∧ ∀ c1 c2 : AliasClass,
          MemoryLocation.may_alias
            (.InstanceVariable 0 1 c1) (.InstanceVariable 0 2 c2) = true := by
  constructor
  · decide
  · decide

/-- C2: `AliasClass.may_alias a b` is true exactly when `a = b` or either
side is `Unknown`; consequently it is reflexive, symmetric, `Unknown`
may-aliases every class, and two distinct non-Unknown classes never
may-alias. -/
theorem C2_alias_class_may_alias_characterization :
    (∀ a b : AliasClass,
        a.may_alias b = (decide (a = b) || decide (a = .Unknown) || decide (b = .Unknown)))
      ∧ (∀ a : AliasClass, a.may_alias a = true)
      ∧ (∀ a b : AliasClass, a.may_alias b = b.may_alias a)
      ∧ (∀ a : AliasClass, AliasClass.Unknown.may_alias a = true)
      ∧ (∀ a b : AliasClass,
          a ≠ b → a ≠ .Unknown → b ≠ .Unknown → a.may_alias b = false) := by
  refine ⟨?_, ?_, ?_, ?_, ?_⟩ <;> decide

/-- Witness for C2: two distinct non-Unknown classes, obtained from the
theorem's last conjunct at a concrete pair. -/
theorem C2_witness : AliasClass.may_alias .ArrayIvar .HashIvar = false :=
  C2_alias_class_may_alias_characterization.2.2.2.2
    AliasClass.ArrayIvar AliasClass.HashIvar (by decide) (by decide) (by decide)

/-- C6: `MemoryOpTracker.may_alias` delegates to `MemoryLocation.may_alias`
when both instruction references have recorded locations, and returns true
whenever either one has no recorded location. -/
theorem C6_tracker_may_alias_delegates_or_true :
    ∀ (t : MemoryOpTracker) (insn1 insn2 : InsnId),
      (∀ loc1 loc2, t.locations insn1 = some loc1 → t.locations insn2 = some loc2 →
        t.may_alias insn1 insn2 = loc1.may_alias loc2)
      ∧ ((t.locations insn1 = none ∨ t.locations insn2 = none) →
        t.may_alias insn1 insn2 = true) := by
  intro t insn1 insn2
  constructor
  · intro loc1 loc2 h1 h2
    simp [MemoryOpTracker.may_alias, h1, h2]
  · intro h
    rcases h with h | h <;> simp [MemoryOpTracker.may_alias, h]

/-- Witness for C6: a concrete tracker with one recorded location; the query
against an unrecorded reference answers true via the theorem's second
conjunct. -/
theorem C6_witness :
    MemoryOpTracker.may_alias
      ⟨fun n => if n = 0 then some (.GlobalVariable 1) else none⟩ 0 5 = true :=
  (C6_tracker_may_alias_delegates_or_true
      ⟨fun n => if n = 0 then some (.GlobalVariable 1) else none⟩ 0 5).2 (Or.inr rfl)

end ZjitCore

namespace ZjitCore

/-! ## Bit-set lemmas and claims C7, C8 -/

theorem entryBits_pos : 0 < entryBits := by decide

/-- The `(e &&& (1 << b)) != 0` test in `get`/`insert` agrees with
`Nat.testBit`. -/
theorem and_one_shiftLeft_ne_zero (e b : Nat) :
    ((e &&& (1 <<< b)) != 0) = e.testBit b := by
  rw [Nat.one_shiftLeft, Nat.and_two_pow]
  cases h : e.testBit b <;> simp [h, (Nat.two_pow_pos b).ne']

/-- In range, `get` evaluates the raw storage bit. -/
theorem BitSet.get_eq_rawBit (s : BitSet) (k : Nat) (hk : k < s.num_bits) :
    s.get k = some (s.rawBit k) := by
  simp [BitSet.get, hk, BitSet.rawBit, and_one_shiftLeft_ne_zero]

/-- For an out-of-range entry index the default lookup yields 0. -/
theorem getD_zero_of_le {l : List Nat} {i : Nat} (h : l.length ≤ i) :
    l.getD i 0 = 0 := by
  simp [List.getD_eq_getElem?_getD, List.getElem?_eq_none h]

/-- The intersection loop computes the pointwise AND of the entries. -/
theorem intersectStorage_fst_getD (xs : List Nat) :
    ∀ (ys : List Nat) (i : Nat),
      ((intersectStorage xs ys).1).getD i 0 = (xs.getD i 0) &&& (ys.getD i 0) := by
  induction xs with
  | nil => intro ys i; simp [intersectStorage, Nat.zero_and]
  | cons a xs ih =>
    intro ys i
    cases ys with
    | nil => simp [intersectStorage, Nat.and_zero]
    | cons b ys =>
      cases i with
      | zero => simp [intersectStorage]
      | succ i => simpa [intersectStorage] using ih ys i

/-- The `changed` flag of the intersection loop is set exactly when some
entry shrank. -/
theorem intersectStorage_snd_iff (xs : List Nat) :
    ∀ ys : List Nat, xs.length = ys.length →
      ((intersectStorage xs ys).2 = true ↔
        ∃ i, (xs.getD i 0) &&& (ys.getD i 0) ≠ xs.getD i 0) := by
  induction xs with
  | nil =>
    intro ys h
    cases ys with
    | nil => simp [intersectStorage]
    | cons b ys => simp at h
  | cons a xs ih =>
    intro ys h
    cases ys with
    | nil => simp at h
    | cons b ys =>
      have hlen : xs.length = ys.length := by simpa using h
      constructor
      · intro hc
        have hc2 : (intersectStorage xs ys).2 = true ∨ ((a &&& b) != a) = true := by
          simpa [intersectStorage, Bool.or_eq_true] using hc
        rcases hc2 with hc2 | hc2
        · obtain ⟨i, hi⟩ := (ih ys hlen).mp hc2
          exact ⟨i + 1, by simpa using hi⟩
        · exact ⟨0, by simpa using hc2⟩
      · rintro ⟨i, hi⟩
        cases i with
        | zero =>
          simp only [List.getD_cons_zero] at hi
          simp [intersectStorage, Bool.or_eq_true, hi]
        | succ i =>
          simp only [List.getD_cons_succ] at hi
          have hrec := (ih ys hlen).mpr ⟨i, hi⟩
          simp [intersectStorage, Bool.or_eq_true, hrec]

/-- An AND with another word changes a `u128`-sized word exactly when some
of its 128 bits is set in it and clear in the other word. -/
theorem and_ne_self_iff (a b : Nat) (ha : a < 2 ^ entryBits) :
    a &&& b ≠ a ↔ ∃ j < entryBits, a.testBit j = true ∧ b.testBit j = false := by
  constructor
  · intro hne
    by_contra hno
    push_neg at hno
    apply hne
    apply Nat.eq_of_testBit_eq
    intro j
    rw [Nat.testBit_and]
    cases hj : a.testBit j with
    | false => simp
    | true =>
      have hjlt : j < entryBits := by
        by_contra hge
        push_neg at hge
        have : a < 2 ^ j :=
          lt_of_lt_of_le ha (Nat.pow_le_pow_right (by norm_num) hge)
        rw [Nat.testBit_lt_two_pow this] at hj
        exact Bool.false_ne_true hj
      have hb : b.testBit j = true := by
        cases hbj : b.testBit j with
        | false => exact absurd hbj (hno j hjlt hj)
        | true => rfl
      simp [hb]
  · rintro ⟨j, hjlt, hja, hjb⟩
    intro heq
    have := congrArg (Nat.testBit · j) heq
    simp [Nat.testBit_and, hja, hjb] at this

/-- A well-formed bit set has no raw bit set at or above its capacity. -/
theorem BitSet.Wf.rawBit_false {s : BitSet} (h : s.Wf) {k : Nat}
    (hk : s.num_bits ≤ k) : s.rawBit k = false := by
  by_cases hlt : k < s.storage.length * entryBits
  · exact h.2.2 k hlt hk
  · push_neg at hlt
    have hdiv : s.storage.length ≤ k / entryBits :=
      (Nat.le_div_iff_mul_le entryBits_pos).mpr hlt
    rw [BitSet.rawBit, getD_zero_of_le hdiv]
    exact Nat.zero_testBit _

/-- An in-range default lookup inherits the entry bound. -/
theorem getD_lt_of_mem {l : List Nat} {i : Nat} (hi : i < l.length)
    (hb : ∀ e ∈ l, e < 2 ^ entryBits) : l.getD i 0 < 2 ^ entryBits := by
  rw [List.getD_eq_getElem?_getD, List.getElem?_eq_getElem hi]
  exact hb _ (List.getElem_mem hi)

/-- The `changed` flag of the intersection loop, expressed on raw storage
bits: some bit is set on the left and clear on the right. -/
theorem intersectStorage_snd_iff_rawBit (s t : BitSet)
    (hlen : s.storage.length = t.storage.length)
    (hs : ∀ e ∈ s.storage, e < 2 ^ entryBits)
    (_ht : ∀ e ∈ t.storage, e < 2 ^ entryBits) :
    ((intersectStorage s.storage t.storage).2 = true ↔
      ∃ k, s.rawBit k = true ∧ t.rawBit k = false) := by
  rw [intersectStorage_snd_iff _ _ hlen]
  constructor
  · rintro ⟨i, hi⟩
    have hilt : i < s.storage.length := by
      by_contra hge
      push_neg at hge
      rw [getD_zero_of_le hge] at hi
      simp [Nat.zero_and] at hi
    have ha : s.storage.getD i 0 < 2 ^ entryBits := getD_lt_of_mem hilt hs
    obtain ⟨j, hjlt, hja, hjb⟩ := (and_ne_self_iff _ _ ha).mp hi
    refine ⟨entryBits * i + j, ?_, ?_⟩
    · rw [BitSet.rawBit, Nat.mul_add_div entryBits_pos, Nat.mul_add_mod,
        Nat.div_eq_of_lt hjlt, Nat.add_zero, Nat.mod_eq_of_lt hjlt]
      exact hja
    · rw [BitSet.rawBit, Nat.mul_add_div entryBits_pos, Nat.mul_add_mod,
        Nat.div_eq_of_lt hjlt, Nat.add_zero, Nat.mod_eq_of_lt hjlt]
      exact hjb
  · rintro ⟨k, hk1, hk2⟩
    refine ⟨k / entryBits, fun heq => ?_⟩
    have hcong := congrArg (Nat.testBit · (k % entryBits)) heq
    rw [BitSet.rawBit] at hk1 hk2
    simp only [Nat.testBit_and] at hcong
    rw [hk1, hk2] at hcong
    simp at hcong

/-- C7: on two bit sets of equal capacity (in well-formed states reachable
through the API), `intersect_with` succeeds, the result has every bit
`k < n` equal to `self[k] AND other[k]`, and the returned flag is true
exactly when some bit of `self` below the capacity changed from set to
clear. -/
theorem C7_intersect_with_correct (s t : BitSet)
    (hn : s.num_bits = t.num_bits) (hs : s.Wf) (ht : t.Wf) :
    ∃ r c, s.intersect_with t = some (r, c)
      ∧ r.num_bits = s.num_bits
      ∧ (∀ k, k < s.num_bits → r.get k = some (s.rawBit k && t.rawBit k))
      ∧ (c = true ↔ ∃ k, k < s.num_bits ∧ s.rawBit k = true ∧ t.rawBit k = false) := by
  have hlen : s.storage.length = t.storage.length := by
    rw [hs.1, ht.1, hn]
  refine ⟨{ s with storage := (intersectStorage s.storage t.storage).1 },
    (intersectStorage s.storage t.storage).2, ?_, rfl, ?_, ?_⟩
  · simp [BitSet.intersect_with, hn]
  · intro k hk
    rw [BitSet.get_eq_rawBit ⟨(intersectStorage s.storage t.storage).1, s.num_bits⟩ k hk]
    congr 1
    show ((intersectStorage s.storage t.storage).1.getD (k / entryBits) 0).testBit
          (k % entryBits)
        = ((s.storage.getD (k / entryBits) 0).testBit (k % entryBits)
            && (t.storage.getD (k / entryBits) 0).testBit (k % entryBits))
    rw [intersectStorage_fst_getD, Nat.testBit_and]
  · rw [intersectStorage_snd_iff_rawBit s t hlen hs.2.1 ht.2.1]
    constructor
    · rintro ⟨k, h1, h2⟩
      refine ⟨k, ?_, h1, h2⟩
      by_contra hge
      push_neg at hge
      rw [hs.rawBit_false hge] at h1
      exact Bool.false_ne_true h1
    · rintro ⟨k, _, h1, h2⟩
      exact ⟨k, h1, h2⟩

/-- Witness for C7, at the spec's own test: left bits {0,1} (entry 3), right
bits {1,2} (entry 6), capacity 3 on both sides. -/
theorem C7_witness :
    ∃ r c, BitSet.intersect_with ⟨[3], 3⟩ ⟨[6], 3⟩ = some (r, c)
      ∧ r.num_bits = 3
      ∧ (∀ k, k < 3 →
          r.get k = some ((⟨[3], 3⟩ : BitSet).rawBit k && (⟨[6], 3⟩ : BitSet).rawBit k))
      ∧ (c = true ↔ ∃ k, k < 3 ∧ (⟨[3], 3⟩ : BitSet).rawBit k = true
          ∧ (⟨[6], 3⟩ : BitSet).rawBit k = false) :=
  C7_intersect_with_correct ⟨[3], 3⟩ ⟨[6], 3⟩ rfl (by decide) (by decide)

/-- C8: an out-of-range index makes `insert` and `get` fail immediately
(modelled as `none`, never a silent success), and a capacity mismatch makes
`intersect_with` fail immediately. -/
theorem C8_precondition_violations_fail (s t : BitSet) (idx : Nat) :
    (s.num_bits ≤ idx → s.insert idx = none ∧ s.get idx = none)
      ∧ (s.num_bits ≠ t.num_bits → s.intersect_with t = none) := by
  constructor
  · intro h
    have h2 : ¬ idx < s.num_bits := Nat.not_lt.mpr h
    exact ⟨by simp [BitSet.insert, h2], by simp [BitSet.get, h2]⟩
  · intro h
    simp [BitSet.intersect_with, h]

/-- Witness for C8: capacity 0 rejects index 0, and capacities 0 and 1 make
intersection fail. -/
theorem C8_witness :
    ((BitSet.with_capacity 0).insert 0 = none ∧ (BitSet.with_capacity 0).get 0 = none)
      ∧ (BitSet.with_capacity 0).intersect_with (BitSet.with_capacity 1) = none :=
  ⟨(C8_precondition_violations_fail (BitSet.with_capacity 0) (BitSet.with_capacity 1) 0).1
      (by decide),
   (C8_precondition_violations_fail (BitSet.with_capacity 0) (BitSet.with_capacity 1) 0).2
      (by decide)⟩

end ZjitCore

namespace ZjitCore

/-! ## Claims C3, C4, C5 -/

/-- C3: the claim states that the not-equal specializer, when it
specializes, inserts invariant checks on both the equality and the
inequality operator redefinition status.  Evaluating `basicobject_neq` on
likely-fixnum operands shows the emitted sequence contains exactly one
patch point, on `BOP_EQ` only, and no patch point on `BOP_NEQ` — although
the function's own comment says the interpreter checks that both `neq` and
`eq` are unchanged. -/
theorem C3_neq_emits_single_eq_patchpoint :
    (basicobject_neq likelyFixnumFn 0 2 [0, 1]).2 = some 1
    ∧ (basicobject_neq likelyFixnumFn 0 2 [0, 1]).1.insns
        = [.PatchPoint (.BOPRedefined INTEGER_REDEFINED_OP_FLAG .BOP_EQ), .FixnumNeq 0 1]
    ∧ Insn.PatchPoint (.BOPRedefined INTEGER_REDEFINED_OP_FLAG .BOP_NEQ)
        ∉ (basicobject_neq likelyFixnumFn 0 2 [0, 1]).1.insns := by
  refine ⟨rfl, rfl, ?_⟩
  decide

/-- C4: the claim states that the catalog entry for Integer equality emits
the equality primitive.  The catalog instead registers `fixnum_gt` for
`Integer#==`, so specializing it on likely-fixnum operands emits the
greater-than primitive `FixnumGt`; the equality specializer `fixnum_eq`
(which does emit `FixnumEq`) is defined in the source but registered
nowhere. -/
theorem C4_integer_eq_entry_emits_gt :
    (catalogLookup "Integer" "==").map
        (fun p => (p.inline likelyFixnumFn 0 2 [0, 1]).1.insns)
      = some [.FixnumGt 0 1]
    ∧ (fixnum_eq likelyFixnumFn 0 2 [0, 1]).1.insns = [.FixnumEq 0 1]
    ∧ (catalogLookup "Integer" ">").map
        (fun p => (p.inline likelyFixnumFn 0 2 [0, 1]).1.insns)
      = some [.FixnumGt 0 1] := by
  exact ⟨rfl, rfl, rfl⟩

/-- Every specializer leaves the function untouched on its decline paths:
`fixnum_add`. -/
theorem fixnum_add_decline (f : Function) (block state : InsnId) (args : List InsnId)
    (h : (fixnum_add f block state args).2 = none) :
    (fixnum_add f block state args).1 = f := by
  rcases args with _ | ⟨a, t⟩
  · rfl
  rcases t with _ | ⟨b, t2⟩
  · rfl
  rcases t2 with _ | ⟨c, t3⟩
  · by_cases hl : f.arguments_likely_fixnums a b state = true
    · simp [fixnum_add, hl] at h
    · simp [fixnum_add, hl]
  · rfl

/-- Decline path of `fixnum_sub`. -/
theorem fixnum_sub_decline (f : Function) (block state : InsnId) (args : List InsnId)
    (h : (fixnum_sub f block state args).2 = none) :
    (fixnum_sub f block state args).1 = f := by
  rcases args with _ | ⟨a, t⟩
  · rfl
  rcases t with _ | ⟨b, t2⟩
  · rfl
  rcases t2 with _ | ⟨c, t3⟩
  · by_cases hl : f.arguments_likely_fixnums a b state = true
    · simp [fixnum_sub, hl] at h
    · simp [fixnum_sub, hl]
  · rfl

/-- Decline path of `fixnum_mul`. -/
theorem fixnum_mul_decline (f : Function) (block state : InsnId) (args : List InsnId)
    (h : (fixnum_mul f block state args).2 = none) :
    (fixnum_mul f block state args).1 = f := by
  rcases args with _ | ⟨a, t⟩
  · rfl
  rcases t with _ | ⟨b, t2⟩
  · rfl
  rcases t2 with _ | ⟨c, t3⟩
  · by_cases hl : f.arguments_likely_fixnums a b state = true
    · simp [fixnum_mul, hl] at h
    · simp [fixnum_mul, hl]
  · rfl

/-- Decline path of `fixnum_div`. -/
theorem fixnum_div_decline (f : Function) (block state : InsnId) (args : List InsnId)
    (h : (fixnum_div f block state args).2 = none) :
    (fixnum_div f block state args).1 = f := by
  rcases args with _ | ⟨a, t⟩
  · rfl
  rcases t with _ | ⟨b, t2⟩
  · rfl
  rcases t2 with _ | ⟨c, t3⟩
  · by_cases hl : f.arguments_likely_fixnums a b state = true
    · simp [fixnum_div, hl] at h
    · simp [fixnum_div, hl]
  · rfl

/-- Decline path of `fixnum_mod`. -/
theorem fixnum_mod_decline (f : Function) (block state : InsnId) (args : List InsnId)
    (h : (fixnum_mod f block state args).2 = none) :
    (fixnum_mod f block state args).1 = f := by
  rcases args with _ | ⟨a, t⟩
  · rfl
  rcases t with _ | ⟨b, t2⟩
  · rfl
  rcases t2 with _ | ⟨c, t3⟩
  · by_cases hl : f.arguments_likely_fixnums a b state = true
    · simp [fixnum_mod, hl] at h
    · simp [fixnum_mod, hl]
  · rfl

/-- Decline path of `fixnum_eq`. -/
theorem fixnum_eq_decline (f : Function) (block state : InsnId) (args : List InsnId)
    (h : (fixnum_eq f block state args).2 = none) :
    (fixnum_eq f block state args).1 = f := by
  rcases args with _ | ⟨a, t⟩
  · rfl
  rcases t with _ | ⟨b, t2⟩
  · rfl
  rcases t2 with _ | ⟨c, t3⟩
  · by_cases hl : f.arguments_likely_fixnums a b state = true
    · simp [fixnum_eq, hl] at h
    · simp [fixnum_eq, hl]
  · rfl

/-- Decline path of `basicobject_neq`: the profile check precedes the patch
point, so a decline emits nothing. -/
theorem basicobject_neq_decline (f : Function) (block state : InsnId) (args : List InsnId)
    (h : (basicobject_neq f block state args).2 = none) :
    (basicobject_neq f block state args).1 = f := by
  rcases args with _ | ⟨a, t⟩
  · rfl
  rcases t with _ | ⟨b, t2⟩
  · rfl
  rcases t2 with _ | ⟨c, t3⟩
  · by_cases hl : f.arguments_likely_fixnums a b state = true
    · simp [basicobject_neq, hl] at h
    · simp [basicobject_neq, hl]
  · rfl

/-- Decline path of `fixnum_lt`. -/
theorem fixnum_lt_decline (f : Function) (block state : InsnId) (args : List InsnId)
    (h : (fixnum_lt f block state args).2 = none) :
    (fixnum_lt f block state args).1 = f := by
  rcases args with _ | ⟨a, t⟩
  · rfl
  rcases t with _ | ⟨b, t2⟩
  · rfl
  rcases t2 with _ | ⟨c, t3⟩
  · by_cases hl : f.arguments_likely_fixnums a b state = true
    · simp [fixnum_lt, hl] at h
    · simp [fixnum_lt, hl]
  · rfl

/-- Decline path of `fixnum_le`. -/
theorem fixnum_le_decline (f : Function) (block state : InsnId) (args : List InsnId)
    (h : (fixnum_le f block state args).2 = none) :
    (fixnum_le f block state args).1 = f := by
  rcases args with _ | ⟨a, t⟩
  · rfl
  rcases t with _ | ⟨b, t2⟩
  · rfl
  rcases t2 with _ | ⟨c, t3⟩
  · by_cases hl : f.arguments_likely_fixnums a b state = true
    · simp [fixnum_le, hl] at h
    · simp [fixnum_le, hl]
  · rfl

/-- Decline path of `fixnum_gt`. -/
theorem fixnum_gt_decline (f : Function) (block state : InsnId) (args : List InsnId)
    (h : (fixnum_gt f block state args).2 = none) :
    (fixnum_gt f block state args).1 = f := by
  rcases args with _ | ⟨a, t⟩
  · rfl
  rcases t with _ | ⟨b, t2⟩
  · rfl
  rcases t2 with _ | ⟨c, t3⟩
  · by_cases hl : f.arguments_likely_fixnums a b state = true
    · simp [fixnum_gt, hl] at h
    · simp [fixnum_gt, hl]
  · rfl

/-- Decline path of `fixnum_ge`. -/
theorem fixnum_ge_decline (f : Function) (block state : InsnId) (args : List InsnId)
    (h : (fixnum_ge f block state args).2 = none) :
    (fixnum_ge f block state args).1 = f := by
  rcases args with _ | ⟨a, t⟩
  · rfl
  rcases t with _ | ⟨b, t2⟩
  · rfl
  rcases t2 with _ | ⟨c, t3⟩
  · by_cases hl : f.arguments_likely_fixnums a b state = true
    · simp [fixnum_ge, hl] at h
    · simp [fixnum_ge, hl]
  · rfl

/-- Decline path of `kernel_itself` (declines only on an unexpected operand
count, emitting nothing). -/
theorem kernel_itself_decline (f : Function) (block state : InsnId) (args : List InsnId)
    (_h : (kernel_itself f block state args).2 = none) :
    (kernel_itself f block state args).1 = f := by
  rcases args with _ | ⟨a, t⟩
  · rfl
  rcases t with _ | ⟨b, t2⟩
  · rfl
  · rfl

/-- Decline path of `no_inline` (always declines, emitting nothing). -/
theorem no_inline_decline (f : Function) (block state : InsnId) (args : List InsnId)
    (_h : (no_inline f block state args).2 = none) :
    (no_inline f block state args).1 = f := rfl

/-- C5: every specializer in the catalog, on every input on which it
declines (returns `none`), leaves the function under construction exactly
as it was. -/
theorem C5_decline_leaves_function_unchanged :
    ∀ entry ∈ builtinCatalog, ∀ (f : Function) (block state : InsnId) (args : List InsnId),
      (entry.2.2.inline f block state args).2 = none →
      (entry.2.2.inline f block state args).1 = f := by
  intro entry he f block state args h
  simp only [builtinCatalog, List.mem_cons, List.not_mem_nil, or_false] at he
  rcases he with rfl | rfl | rfl | rfl | rfl | rfl | rfl | rfl | rfl | rfl | rfl | rfl |
    rfl | rfl | rfl | rfl | rfl
  · exact kernel_itself_decline f block state args h
  · exact no_inline_decline f block state args h
  · exact no_inline_decline f block state args h
  · exact no_inline_decline f block state args h
  · exact no_inline_decline f block state args h
  · exact no_inline_decline f block state args h
  · exact basicobject_neq_decline f block state args h
  · exact fixnum_add_decline f block state args h
  · exact fixnum_sub_decline f block state args h
  · exact fixnum_mul_decline f block state args h
  · exact fixnum_div_decline f block state args h
  · exact fixnum_mod_decline f block state args h
  · exact fixnum_gt_decline f block state args h
  · exact fixnum_lt_decline f block state args h
  · exact fixnum_le_decline f block state args h
  · exact fixnum_gt_decline f block state args h
  · exact fixnum_ge_decline f block state args h

/-- Witness for C5: the Integer addition entry declines on operands whose
profile is not likely-fixnum, and the function is unchanged. -/
theorem C5_witness :
    (fixnum_add
        { insns := [], likely_fixnums := fun _ _ _ => false, is_fixnum := fun _ => false }
        0 0 [0, 1]).1
      = { insns := [], likely_fixnums := fun _ _ _ => false, is_fixnum := fun _ => false } :=
  C5_decline_leaves_function_unchanged
    ("Integer", "+", ⟨false, false, .IntegerExact, false, fixnum_add⟩)
    (by simp [builtinCatalog])
    { insns := [], likely_fixnums := fun _ _ _ => false, is_fixnum := fun _ => false }
    0 0 [0, 1] rfl

end ZjitCore

namespace ZjitCore

/-! ## Claims C9, C10 -/

/-- Counterexample for C9: after observing `[10, 10, 11, 11]` with capacity
4, buckets `[10, 11]` tie at count 2.  The claim says the first such bucket
in creation order (10) is returned; `most_common` returns the last one
(11), because `max_by` keeps the later element on ties. -/
theorem C9_counterexample_tie_returns_last :
    (List.foldl Distribution.observe (Distribution.new Nat 4) [10, 10, 11, 11]).buckets
        = [10, 11]
    ∧ (List.foldl Distribution.observe (Distribution.new Nat 4) [10, 10, 11, 11]).counts
        = [2, 2]
    ∧ (List.foldl Distribution.observe (Distribution.new Nat 4) [10, 10, 11, 11]).most_common
        = some 11
    ∧ (List.foldl Distribution.observe (Distribution.new Nat 4) [10, 10, 11, 11]).most_common
        ≠ some 10 := by
  refine ⟨rfl, rfl, rfl, ?_⟩
  decide

/-- The `max_by` accumulator either keeps the initial element (and then
everything in the list is strictly smaller) or lands on a list element that
dominates the initial element and everything else, strictly dominating
everything after its position (ties resolve to the last maximum). -/
theorem maxByLastAux_spec {T : Type} (xs : List (T × Nat)) :
    ∀ a : T × Nat,
      (maxByLastAux a xs = a ∧ ∀ y ∈ xs, y.2 < a.2)
      ∨ (∃ l1 l2, xs = l1 ++ maxByLastAux a xs :: l2
          ∧ a.2 ≤ (maxByLastAux a xs).2
          ∧ (∀ y ∈ l1, y.2 ≤ (maxByLastAux a xs).2)
          ∧ (∀ y ∈ l2, y.2 < (maxByLastAux a xs).2)) := by
  induction xs with
  | nil => intro a; left; exact ⟨rfl, by simp⟩
  | cons x xs ih =>
    intro a
    by_cases hx : x.2 < a.2
    · have heq : maxByLastAux a (x :: xs) = maxByLastAux a xs := by
        simp [maxByLastAux, hx]
      rcases ih a with ⟨h1, h2⟩ | ⟨l1, l2, hsplit, hle, hl1, hl2⟩
      · left
        rw [heq, h1]
        refine ⟨rfl, ?_⟩
        intro y hy
        rcases List.mem_cons.mp hy with rfl | hy
        · exact hx
        · exact h2 y hy
      · right
        rw [heq]
        refine ⟨x :: l1, l2, ?_, hle, ?_, hl2⟩
        · rw [List.cons_append, ← hsplit]
        · intro y hy
          rcases List.mem_cons.mp hy with rfl | hy
          · exact le_trans (le_of_lt hx) hle
          · exact hl1 y hy
    · have heq : maxByLastAux a (x :: xs) = maxByLastAux x xs := by
        simp [maxByLastAux, hx]
      push_neg at hx
      rcases ih x with ⟨h1, h2⟩ | ⟨l1, l2, hsplit, hle, hl1, hl2⟩
      · right
        rw [heq, h1]
        exact ⟨[], xs, by simp, hx, by simp, h2⟩
      · right
        rw [heq]
        refine ⟨x :: l1, l2, ?_, le_trans hx hle, ?_, hl2⟩
        · rw [List.cons_append, ← hsplit]
        · intro y hy
          rcases List.mem_cons.mp hy with rfl | hy
          · exact hle
          · exact hl1 y hy

/-- C9 (amended): `most_common` returns none exactly when there is no
bucket (the overflow counter is ignored); otherwise it returns a bucket of
maximal count, and on ties the last such bucket in creation order: the
returned entry dominates every entry and strictly dominates every entry
after its own position. -/
theorem C9_amended_most_common {T : Type} (d : Distribution T) :
    (d.most_common = none ↔ d.buckets.zip d.counts = [])
    ∧ ∀ x xs, d.buckets.zip d.counts = x :: xs →
        ∃ m l1 l2, x :: xs = l1 ++ m :: l2
          ∧ d.most_common = some m.1
          ∧ (∀ y ∈ x :: xs, y.2 ≤ m.2)
          ∧ (∀ y ∈ l2, y.2 < m.2) := by
  cases hz : d.buckets.zip d.counts with
  | nil =>
    refine ⟨⟨fun _ => rfl, fun _ => ?_⟩, fun x xs hxz => ?_⟩
    · simp [Distribution.most_common, hz]
    · simp at hxz
  | cons x0 xs0 =>
    have hmc : d.most_common = some (maxByLastAux x0 xs0).1 := by
      simp [Distribution.most_common, hz]
    refine ⟨⟨fun hnone => ?_, fun hempty => ?_⟩, fun x xs hxz => ?_⟩
    · rw [hmc] at hnone; cases hnone
    · simp at hempty
    · injection hxz with hx hxs
      subst hx; subst hxs
      rcases maxByLastAux_spec xs0 x0 with ⟨h1, h2⟩ | ⟨l1, l2, hsplit, hle, hl1, hl2⟩
      · refine ⟨maxByLastAux x0 xs0, [], xs0, by rw [h1]; simp, hmc, ?_, ?_⟩
        · intro y hy
          rcases List.mem_cons.mp hy with rfl | hy
          · rw [h1]
          · rw [h1]; exact le_of_lt (h2 y hy)
        · intro y hy; rw [h1]; exact h2 y hy
      · refine ⟨maxByLastAux x0 xs0, x0 :: l1, l2, ?_, hmc, ?_, hl2⟩
        · rw [List.cons_append, ← hsplit]
        · intro y hy
          rcases List.mem_cons.mp hy with rfl | hy
          · exact hle
          · rw [hsplit] at hy
            rcases List.mem_append.mp hy with hy | hy
            · exact hl1 y hy
            · rcases List.mem_cons.mp hy with rfl | hy
              · exact le_refl _
              · exact le_of_lt (hl2 y hy)

/-- Witness for C9: the spec's capacity-4 sequence
`[10,10,11,11,11,12,12]`; the theorem instantiated at its zipped state
yields `most_common = 11`. -/
theorem C9_witness :
    ∃ m l1 l2, ((10, 2) : Nat × Nat) :: [(11, 3), (12, 2)] = l1 ++ m :: l2
      ∧ (List.foldl Distribution.observe (Distribution.new Nat 4)
            [10, 10, 11, 11, 11, 12, 12]).most_common = some m.1
      ∧ (∀ y ∈ ((10, 2) : Nat × Nat) :: [(11, 3), (12, 2)], y.2 ≤ m.2)
      ∧ (∀ y ∈ l2, y.2 < m.2) :=
  (C9_amended_most_common
      (List.foldl Distribution.observe (Distribution.new Nat 4)
        [10, 10, 11, 11, 11, 12, 12])).2
    (10, 2) [(11, 3), (12, 2)] (by decide)

/-- A successful bucket scan only rewrites counts, preserving the length. -/
theorem observeLoop_some_length {T : Type} [DecidableEq T] :
    ∀ (bs : List T) (cs : List Nat) (item : T) (cs2 : List Nat),
      observeLoop bs cs item = some cs2 → cs2.length = cs.length := by
  intro bs
  induction bs with
  | nil => intro cs item cs2 h; simp [observeLoop] at h
  | cons b bs ih =>
    intro cs item cs2 h
    cases cs with
    | nil => simp [observeLoop] at h
    | cons c cs =>
      by_cases hb : b = item
      · simp [observeLoop, hb] at h
        rw [← h]
        simp
      · simp [observeLoop, hb] at h
        obtain ⟨a, ha, rfl⟩ := h
        simp [ih cs item a ha]

/-- A failed bucket scan over equally long vectors means the item is in no
bucket. -/
theorem observeLoop_none_not_mem {T : Type} [DecidableEq T] :
    ∀ (bs : List T) (cs : List Nat) (item : T), bs.length = cs.length →
      observeLoop bs cs item = none → item ∉ bs := by
  intro bs
  induction bs with
  | nil => intro cs item _ _; simp
  | cons b bs ih =>
    intro cs item hlen h
    cases cs with
    | nil => simp at hlen
    | cons c cs =>
      by_cases hb : b = item
      · simp [observeLoop, hb] at h
      · have hlen2 : bs.length = cs.length := by simpa using hlen
        simp only [observeLoop, hb, if_false, Option.map_eq_none'] at h
        intro hmem
        rcases List.mem_cons.mp hmem with rfl | hmem
        · exact hb rfl
        · exact ih cs item hlen2 h hmem

/-- One `observe` call preserves the C10 invariant. -/
theorem observe_preserves_DistInv {T : Type} [DecidableEq T]
    (d : Distribution T) (item : T) (h : DistInv d) : DistInv (d.observe item) := by
  obtain ⟨hlen, hcap, hnd⟩ := h
  unfold Distribution.observe
  cases hloop : observeLoop d.buckets d.counts item with
  | some cs2 =>
    refine ⟨?_, hcap, hnd⟩
    rw [observeLoop_some_length _ _ _ _ hloop]
    exact hlen
  | none =>
    by_cases hlt : d.buckets.length < d.max_num_buckets
    · simp only [hlt, if_true]
      refine ⟨by simp [hlen], by simpa using hlt, ?_⟩
      have hnm : item ∉ d.buckets := observeLoop_none_not_mem _ _ _ hlen hloop
      rw [List.nodup_append]
      refine ⟨hnd, List.nodup_singleton item, ?_⟩
      intro x hx hxmem
      rw [List.mem_singleton] at hxmem
      subst hxmem
      exact hnm hx
    · simp only [hlt, if_false]
      exact ⟨hlen, hcap, hnd⟩

/-- C10: from a fresh profile of any capacity, after any sequence of
`observe` calls the bucket and count vectors have equal length, that length
never exceeds the capacity, and the buckets are pairwise distinct. -/
theorem C10_observe_invariant {T : Type} [DecidableEq T] (K : Nat) (items : List T) :
    DistInv (List.foldl Distribution.observe (Distribution.new T K) items) := by
  have hstep : ∀ (l : List T) (d : Distribution T), DistInv d →
      DistInv (List.foldl Distribution.observe d l) := by
    intro l
    induction l with
    | nil => intro d hd; exact hd
    | cons i is ih => intro d hd; exact ih _ (observe_preserves_DistInv d i hd)
  exact hstep items _ ⟨rfl, Nat.zero_le K, List.nodup_nil⟩

/-- Witness for C10 at a concrete capacity and observation sequence. -/
theorem C10_witness :
    DistInv (List.foldl Distribution.observe (Distribution.new Nat 2) [10, 10, 11, 12]) :=
  C10_observe_invariant 2 [10, 10, 11, 12]

end ZjitCore
